import Mathlib

/-!
Shallow embedding of the `Maze_Generator` class of
`src/minigrid/envs/maze.py` (repository `Dongyeongkim/Minigrid-Maze`).

The Python object owns a `width × height` numpy boolean grid
(`True` = passage, `False` = wall).  We embed the grid as the `Finset` of
its `True` cells.  The working set `s` of the growth loop is a Python
`set` mutated by `add`/`remove` and sampled by `random.choice(tuple(s))`;
we embed it as a duplicate-free list together with a stream
`rng : ℕ → ℕ` of random draws: draw number `t` picks index
`rng t % length` of the current candidate list.  Quantifying over all
streams covers every possible sequence of choices of the Python code
(any element of a nonempty candidate set is picked by a suitable draw),
so universally quantified theorems below cover all executions.

The loop of `__generate` is embedded fuel-indexed (`run`); the proved
termination bound shows the fuel used by `mkMaze` always suffices, i.e.
`run` with that fuel is the exact limit of the Python `while` loop.
The fields `t`, `pops`, `carves`, `emptyPops` of `GenState` are ghost
counters (draw position, loop iterations, executed `__connect` calls,
iterations whose neighbour set was empty); they do not influence the
evolution of `g` and `s`.
-/

namespace MazeGen

/-- A lattice cell, addressed as `(x, y)` with `0 ≤ x < width`, `0 ≤ y < height`. -/
abbrev Cell : Type := ℕ × ℕ

/-- Both coordinates even: the parity class of the origin and of every
working-set cell. -/
def evenCell (c : Cell) : Prop := c.1 % 2 = 0 ∧ c.2 % 2 = 0

instance (c : Cell) : Decidable (evenCell c) := by
  unfold evenCell; exact inferInstance

/-- Distance exactly two along a single axis, diagonals excluded
(the adjacency used by `__frontier` / `__neighbours`). -/
def dist2 (a b : Cell) : Prop :=
  (a.2 = b.2 ∧ (a.1 + 2 = b.1 ∨ b.1 + 2 = a.1)) ∨
  (a.1 = b.1 ∧ (a.2 + 2 = b.2 ∨ b.2 + 2 = a.2))

instance (a b : Cell) : Decidable (dist2 a b) := by
  unfold dist2; exact inferInstance

/-- Four-adjacency: distance exactly one along a single axis. -/
def adj4 (a b : Cell) : Prop :=
  (a.2 = b.2 ∧ (a.1 + 1 = b.1 ∨ b.1 + 1 = a.1)) ∨
  (a.1 = b.1 ∧ (a.2 + 1 = b.2 ∨ b.2 + 1 = a.2))

/-- Midpoint cell of two cells, by integer (floor) division exactly as the
source computes `x = (x1 + x2) // 2`, `y = (y1 + y2) // 2`. -/
def midpt (a b : Cell) : Cell := ((a.1 + b.1) / 2, (a.2 + b.2) / 2)

/-- Embedding of `Maze_Generator.__frontier`: the wall cells of exact
distance two (diagonals excluded) from `(x, y)`, guarded exactly as the
source (`x > 1`, `x + 2 < self._width`, ... , and the outer bounds check
on `(x, y)` itself).  The source returns a Python set; we return the
candidate list in source order, used only up to membership. -/
def frontierList (w h : ℕ) (g : Finset Cell) (x y : ℕ) : List Cell :=
  if x < w ∧ y < h then
    (if 1 < x ∧ (x - 2, y) ∉ g then [(x - 2, y)] else []) ++
    (if x + 2 < w ∧ (x + 2, y) ∉ g then [(x + 2, y)] else []) ++
    (if 1 < y ∧ (x, y - 2) ∉ g then [(x, y - 2)] else []) ++
    (if y + 2 < h ∧ (x, y + 2) ∉ g then [(x, y + 2)] else [])
  else []

/-- Embedding of `Maze_Generator.__neighbours`: the passage cells of exact
distance two from `(x, y)`, with the same guards as `__frontier`. -/
def neighboursList (w h : ℕ) (g : Finset Cell) (x y : ℕ) : List Cell :=
  if x < w ∧ y < h then
    (if 1 < x ∧ (x - 2, y) ∈ g then [(x - 2, y)] else []) ++
    (if x + 2 < w ∧ (x + 2, y) ∈ g then [(x + 2, y)] else []) ++
    (if 1 < y ∧ (x, y - 2) ∈ g then [(x, y - 2)] else []) ++
    (if y + 2 < h ∧ (x, y + 2) ∈ g then [(x, y + 2)] else [])
  else []

/-- Embedding of `Maze_Generator.__connect`: sets `grid[x1][y1]` and the
midpoint `grid[(x1+x2)//2][(y1+y2)//2]` to `True`. -/
def connect (g : Finset Cell) (x1 y1 x2 y2 : ℕ) : Finset Cell :=
  insert ((x1 + x2) / 2, (y1 + y2) / 2) (insert (x1, y1) g)

/-- State of `__generate`: passage set `g`, working set `s`, and ghost
counters (`t` = number of random draws consumed, `pops` = loop
iterations, `carves` = executed `__connect` calls, `emptyPops` =
iterations whose neighbour set was empty). -/
structure GenState where
  g : Finset Cell
  s : List Cell
  t : ℕ
  pops : ℕ
  carves : ℕ
  emptyPops : ℕ
deriving DecidableEq

/-- Python `set.add`: append unless already present (duplicate adds
collapse). -/
def sAdd (l : List Cell) (c : Cell) : List Cell :=
  if c ∈ l then l else l ++ [c]

/-- Embedding of `random.choice(tuple(l))`: the draw `r` picks index
`r % length`.  Out of a nonempty list every element is reachable by a
suitable draw. -/
def pick (l : List Cell) (r : ℕ) : Cell := l.getD (r % l.length) (0, 0)

/-- Body of one iteration of the `while s:` loop of `__generate`, after
the popped cell `c` has been chosen: remove `c`, compute its neighbours,
connect to a randomly drawn neighbour if any exist, then fold the frontier
of `c` into the working set. -/
def popStep (rng : ℕ → ℕ) (w h : ℕ) (st : GenState) (c : Cell) : GenState :=
  let s1 := st.s.erase c
  let ns := neighboursList w h st.g c.1 c.2
  if ns = [] then
    { g := st.g
      s := (frontierList w h st.g c.1 c.2).foldl sAdd s1
      t := st.t + 1
      pops := st.pops + 1
      carves := st.carves
      emptyPops := st.emptyPops + 1 }
  else
    let n := pick ns (rng (st.t + 1))
    let g2 := connect st.g c.1 c.2 n.1 n.2
    { g := g2
      s := (frontierList w h g2 c.1 c.2).foldl sAdd s1
      t := st.t + 2
      pops := st.pops + 1
      carves := st.carves + 1
      emptyPops := st.emptyPops }

/-- One iteration of the `while s:` loop: pop a random cell and run the
body; identity when the working set is empty. -/
def step (rng : ℕ → ℕ) (w h : ℕ) (st : GenState) : GenState :=
  if st.s.isEmpty then st else popStep rng w h st (pick st.s (rng st.t))

/-- The `while s:` loop, fuel-indexed: stops as soon as `s` is empty.
The termination theorem below shows fuel `4 * w * h` always suffices. -/
def run (rng : ℕ → ℕ) (w h : ℕ) : ℕ → GenState → GenState
  | 0, st => st
  | fuel + 1, st => if st.s.isEmpty then st else run rng w h fuel (step rng w h st)

/-- State of `__generate` just before its `while` loop: origin `(0, 0)`
carved, working set seeded with the frontier of the origin. -/
def initState (w h : ℕ) : GenState :=
  { g := {(0, 0)}
    s := (frontierList w h {(0, 0)} 0 0).foldl sAdd []
    t := 0
    pops := 0
    carves := 0
    emptyPops := 0 }

/-- Python-level failures of the embedded fragment.  Writing or reading a
numpy index outside the valid range raises `IndexError`; the source has
no other failure mode (in particular no dedicated dimension check). -/
inductive PyError
  | indexError
deriving DecidableEq

/-- Embedding of `Maze_Generator.__init__`: no dimension validation; the
very first statement of `__generate`, `self.grid[0][0] = True`, raises
`IndexError` iff `width = 0` or `height = 0`; otherwise the generation
loop runs to completion (fuel `4 * w * h`, proved sufficient below). -/
def mkMaze (w h : ℕ) (rng : ℕ → ℕ) : Except PyError GenState :=
  if w = 0 ∨ h = 0 then .error .indexError
  else .ok (run rng w h (4 * w * h) (initState w h))

/-- Reading `maze.grid[x][y]` on the finished numpy grid (the accessor the
host code uses): numpy integer indexing accepts `-width ≤ x < width`
(negative indices wrap to `x + width`) and raises `IndexError` otherwise;
likewise for `y`. -/
def isPassage (w h : ℕ) (g : Finset Cell) (x y : ℤ) : Except PyError Bool :=
  if -(w : ℤ) ≤ x ∧ x < (w : ℤ) ∧ -(h : ℤ) ≤ y ∧ y < (h : ℤ) then
    .ok (decide (((x % (w : ℤ)).toNat, (y % (h : ℤ)).toNat) ∈ g))
  else .error .indexError

/-- Ordered pairs of even-parity passage cells at distance two whose
intervening midpoint cell is also a passage: the carved connections, the
edges of the maze's distance-2 passage graph. -/
def dist2EdgeSet (g : Finset Cell) : Finset (Cell × Cell) :=
  (g ×ˢ g).filter fun p =>
    evenCell p.1 ∧ evenCell p.2 ∧ dist2 p.1 p.2 ∧ midpt p.1 p.2 ∈ g

/-- The two ordered edges realised by a midpoint cell `m` (odd in its
first coordinate: horizontal connection; otherwise vertical). -/
def midEdges (m : Cell) : Finset (Cell × Cell) :=
  if m.1 % 2 = 1 then
    {((m.1 - 1, m.2), (m.1 + 1, m.2)), ((m.1 + 1, m.2), (m.1 - 1, m.2))}
  else
    {((m.1, m.2 - 1), (m.1, m.2 + 1)), ((m.1, m.2 + 1), (m.1, m.2 - 1))}

/-- All in-bounds cells of a `w × h` lattice. -/
def allCells (w h : ℕ) : Finset Cell := Finset.range w ×ˢ Finset.range h

/-- Termination measure: number of in-bounds even-parity cells that are
still walls. -/
def wallCount (w h : ℕ) (st : GenState) : ℕ :=
  ((allCells w h).filter fun c => evenCell c ∧ c ∉ st.g).card

/-- Reachability from the origin through passage cells under
four-adjacency. -/
inductive Reach4 (g : Finset Cell) : Cell → Prop
  | base : (0, 0) ∈ g → Reach4 g (0, 0)
  | next {a b : Cell} : Reach4 g a → b ∈ g → adj4 a b → Reach4 g b

/-- Reachability from the origin through passage cells by steps of exactly
two along one axis whose intervening midpoint cell is also a passage. -/
inductive Reach2 (g : Finset Cell) : Cell → Prop
  | base : (0, 0) ∈ g → Reach2 g (0, 0)
  | next {a b : Cell} : Reach2 g a → b ∈ g → dist2 a b → midpt a b ∈ g → Reach2 g b

/-- The constant-zero draw stream, used for concrete runs. -/
def rngZero : ℕ → ℕ := fun _ => 0

/-! ## Basic lemmas about the candidate lists and the working set -/

theorem mem_cond {α : Type} {p : Prop} [Decidable p] {a c : α} :
    c ∈ (if p then [a] else []) ↔ p ∧ c = a := by
  split <;> simp_all

theorem mem_frontierList {w h : ℕ} {g : Finset Cell} {x y : ℕ}
    (hx : x < w) (hy : y < h) {c : Cell} :
    c ∈ frontierList w h g x y ↔ c.1 < w ∧ c.2 < h ∧ c ∉ g ∧ dist2 (x, y) c := by
  obtain ⟨cx, cy⟩ := c
  unfold frontierList
  rw [if_pos ⟨hx, hy⟩]
  simp only [List.mem_append, mem_cond, dist2, Prod.mk.injEq]
  constructor
  · rintro (((⟨⟨h1, h2⟩, rfl, rfl⟩ | ⟨⟨h1, h2⟩, rfl, rfl⟩) | ⟨⟨h1, h2⟩, rfl, rfl⟩) |
      ⟨⟨h1, h2⟩, rfl, rfl⟩) <;>
      refine ⟨by omega, by omega, h2, ?_⟩ <;> [left; left; right; right] <;>
      constructor <;> omega
  · rintro ⟨hcx, hcy, hcg, (⟨he, h2 | h2⟩ | ⟨he, h2 | h2⟩)⟩
    · subst he h2
      exact Or.inl (Or.inl (Or.inr ⟨⟨hcx, hcg⟩, rfl, rfl⟩))
    · obtain rfl : cx = x - 2 := by omega
      subst he
      exact Or.inl (Or.inl (Or.inl ⟨⟨by omega, hcg⟩, rfl, rfl⟩))
    · subst he h2
      exact Or.inr ⟨⟨hcy, hcg⟩, rfl, rfl⟩
    · obtain rfl : cy = y - 2 := by omega
      subst he
      exact Or.inl (Or.inr ⟨⟨by omega, hcg⟩, rfl, rfl⟩)

theorem mem_neighboursList {w h : ℕ} {g : Finset Cell} {x y : ℕ}
    (hx : x < w) (hy : y < h) {c : Cell} :
    c ∈ neighboursList w h g x y ↔ c.1 < w ∧ c.2 < h ∧ c ∈ g ∧ dist2 (x, y) c := by
  obtain ⟨cx, cy⟩ := c
  unfold neighboursList
  rw [if_pos ⟨hx, hy⟩]
  simp only [List.mem_append, mem_cond, dist2, Prod.mk.injEq]
  constructor
  · rintro (((⟨⟨h1, h2⟩, rfl, rfl⟩ | ⟨⟨h1, h2⟩, rfl, rfl⟩) | ⟨⟨h1, h2⟩, rfl, rfl⟩) |
      ⟨⟨h1, h2⟩, rfl, rfl⟩) <;>
      refine ⟨by omega, by omega, h2, ?_⟩ <;> [left; left; right; right] <;>
      constructor <;> omega
  · rintro ⟨hcx, hcy, hcg, (⟨he, h2 | h2⟩ | ⟨he, h2 | h2⟩)⟩
    · subst he h2
      exact Or.inl (Or.inl (Or.inr ⟨⟨hcx, hcg⟩, rfl, rfl⟩))
    · obtain rfl : cx = x - 2 := by omega
      subst he
      exact Or.inl (Or.inl (Or.inl ⟨⟨by omega, hcg⟩, rfl, rfl⟩))
    · subst he h2
      exact Or.inr ⟨⟨hcy, hcg⟩, rfl, rfl⟩
    · obtain rfl : cy = y - 2 := by omega
      subst he
      exact Or.inl (Or.inr ⟨⟨by omega, hcg⟩, rfl, rfl⟩)

theorem frontierList_oob {w h : ℕ} {g : Finset Cell} {x y : ℕ}
    (hxy : ¬(x < w ∧ y < h)) : frontierList w h g x y = [] := by
  unfold frontierList
  rw [if_neg hxy]

theorem neighboursList_oob {w h : ℕ} {g : Finset Cell} {x y : ℕ}
    (hxy : ¬(x < w ∧ y < h)) : neighboursList w h g x y = [] := by
  unfold neighboursList
  rw [if_neg hxy]

theorem mem_sAdd {l : List Cell} {a c : Cell} :
    c ∈ sAdd l a ↔ c ∈ l ∨ c = a := by
  unfold sAdd
  split <;> rename_i hmem
  · constructor
    · exact Or.inl
    · rintro (hc | rfl) <;> [exact hc; exact hmem]
  · simp

theorem nodup_sAdd {l : List Cell} (hl : l.Nodup) (a : Cell) :
    (sAdd l a).Nodup := by
  unfold sAdd
  split <;> rename_i hmem
  · exact hl
  · simpa [List.nodup_append] using ⟨hl, fun hc => hmem hc⟩

theorem mem_foldl_sAdd {xs : List Cell} {l : List Cell} {c : Cell} :
    c ∈ xs.foldl sAdd l ↔ c ∈ l ∨ c ∈ xs := by
  induction xs generalizing l with
  | nil => simp
  | cons a xs ih =>
    simp only [List.foldl_cons, ih, mem_sAdd, List.mem_cons]
    tauto

theorem nodup_foldl_sAdd {xs : List Cell} {l : List Cell} (hl : l.Nodup) :
    (xs.foldl sAdd l).Nodup := by
  induction xs generalizing l with
  | nil => exact hl
  | cons a xs ih => exact ih (nodup_sAdd hl a)

theorem pick_mem {l : List Cell} (hl : l ≠ []) (r : ℕ) : pick l r ∈ l := by
  have hlen : 0 < l.length := List.length_pos.mpr hl
  have hlt : r % l.length < l.length := Nat.mod_lt _ hlen
  rw [pick, l.getD_eq_getElem (0, 0) hlt]
  exact l.getElem_mem hlt

/-! ## Arithmetic helpers about the distance-two relation -/

theorem dist2_symm {a b : Cell} (hd : dist2 a b) : dist2 b a := by
  unfold dist2 at *
  omega

theorem dist2_evenCell {a b : Cell} (hd : dist2 a b) (ha : evenCell a) :
    evenCell b := by
  unfold dist2 evenCell at *
  omega

theorem midpt_comm (a b : Cell) : midpt a b = midpt b a := by
  unfold midpt
  rw [Nat.add_comm a.1, Nat.add_comm a.2]

theorem midpt_odd {a b : Cell} (hd : dist2 a b) (ha : evenCell a) :
    (midpt a b).1 % 2 = 0 ∨ (midpt a b).2 % 2 = 0 := by
  unfold dist2 evenCell midpt at *
  omega

theorem midpt_not_evenCell {a b : Cell} (hd : dist2 a b) (ha : evenCell a) :
    ¬ evenCell (midpt a b) := by
  unfold dist2 evenCell midpt at *
  omega

/-! ## Reachability is monotone in the passage set -/

theorem Reach4_mono {g g' : Finset Cell} (hsub : g ⊆ g') {c : Cell}
    (hr : Reach4 g c) : Reach4 g' c := by
  induction hr with
  | base hm => exact Reach4.base (hsub hm)
  | next _ hb hadj ih => exact Reach4.next ih (hsub hb) hadj

theorem Reach2_mono {g g' : Finset Cell} (hsub : g ⊆ g') {c : Cell}
    (hr : Reach2 g c) : Reach2 g' c := by
  induction hr with
  | base hm => exact Reach2.base (hsub hm)
  | next _ hb hd hmid ih => exact Reach2.next ih (hsub hb) hd (hsub hmid)

theorem neighbours_ne_nil_mono {w h : ℕ} {g g' : Finset Cell} {x y : ℕ}
    (hsub : g ⊆ g') (hx : x < w) (hy : y < h)
    (hne : neighboursList w h g x y ≠ []) :
    neighboursList w h g' x y ≠ [] := by
  obtain ⟨c, hc⟩ := List.exists_mem_of_ne_nil _ hne
  obtain ⟨h1, h2, h3, h4⟩ := (mem_neighboursList hx hy).mp hc
  exact List.ne_nil_of_mem ((mem_neighboursList hx hy).mpr ⟨h1, h2, hsub h3, h4⟩)

theorem midpt_inj {a b c d : Cell} (hab : dist2 a b) (hcd : dist2 c d)
    (ha : evenCell a) (hc : evenCell c) (he : midpt a b = midpt c d) :
    (a = c ∧ b = d) ∨ (a = d ∧ b = c) := by
  unfold dist2 evenCell midpt at *
  simp only [Prod.ext_iff] at *
  omega

theorem mid_endpoints_x {a b x : Cell} (hab : dist2 a b) (ha : evenCell a)
    (hm : midpt a b = x) (h1 : x.1 % 2 = 1) :
    (a = (x.1 - 1, x.2) ∧ b = (x.1 + 1, x.2)) ∨
    (a = (x.1 + 1, x.2) ∧ b = (x.1 - 1, x.2)) := by
  unfold dist2 evenCell midpt at *
  simp only [Prod.ext_iff] at *
  omega

theorem mid_endpoints_y {a b x : Cell} (hab : dist2 a b) (ha : evenCell a)
    (hm : midpt a b = x) (h1 : x.2 % 2 = 1) :
    (a = (x.1, x.2 - 1) ∧ b = (x.1, x.2 + 1)) ∨
    (a = (x.1, x.2 + 1) ∧ b = (x.1, x.2 - 1)) := by
  unfold dist2 evenCell midpt at *
  simp only [Prod.ext_iff] at *
  omega

theorem adj4_midpt_left {a b : Cell} (hd : dist2 a b) : adj4 a (midpt a b) := by
  unfold dist2 at hd
  unfold adj4 midpt
  simp only []
  omega

theorem adj4_midpt_right {a b : Cell} (hd : dist2 a b) : adj4 (midpt a b) b := by
  unfold dist2 at hd
  unfold adj4 midpt
  simp only []
  omega

/-! ## The inductive invariant of the growth loop -/

/-- Invariant maintained by every iteration of the `while` loop of
`__generate`.  It packages: bounds and parity of the carved cells, the
midpoint structure of odd-parity passages (each is the middle of a carved
connection whose two endpoints are passages), the working set being a
duplicate-free set of in-bounds even-parity wall cells each of which has
at least one passage neighbour at distance two, reachability of every
passage from the origin, and the ghost-counter bookkeeping (node and edge
counts of the carved spanning tree, one carve per pop, no iteration ever
finding an empty neighbour set). -/
structure Inv (w h : ℕ) (st : GenState) : Prop where
  origin_mem : (0, 0) ∈ st.g
  g_bounds : ∀ c ∈ st.g, c.1 < w ∧ c.2 < h
  g_parity : ∀ c ∈ st.g, c.1 % 2 = 0 ∨ c.2 % 2 = 0
  g_mid : ∀ x ∈ st.g, ¬ evenCell x →
    ∃ a b : Cell, a ∈ st.g ∧ b ∈ st.g ∧ evenCell a ∧ dist2 a b ∧ midpt a b = x
  s_nodup : st.s.Nodup
  s_bounds : ∀ c ∈ st.s, c.1 < w ∧ c.2 < h
  s_parity : ∀ c ∈ st.s, evenCell c
  s_wall : ∀ c ∈ st.s, c ∉ st.g
  s_nb : ∀ c ∈ st.s, neighboursList w h st.g c.1 c.2 ≠ []
  reach : ∀ c ∈ st.g, Reach4 st.g c ∧ (evenCell c → Reach2 st.g c)
  count_even : (st.g.filter evenCell).card = st.carves + 1
  count_odd : (st.g.filter fun c => ¬ evenCell c).card = st.carves
  pops_carves : st.pops = st.carves
  no_empty : st.emptyPops = 0

theorem inv_init (w h : ℕ) (hw : 0 < w) (hh : 0 < h) : Inv w h (initState w h) := by
  have horig : ((0, 0) : Cell) ∈ ({(0, 0)} : Finset Cell) := Finset.mem_singleton_self _
  have hmem : ∀ c : Cell, c ∈ (initState w h).s ↔
      c.1 < w ∧ c.2 < h ∧ c ∉ ({(0, 0)} : Finset Cell) ∧ dist2 (0, 0) c := by
    intro c
    rw [show (initState w h).s = (frontierList w h {(0, 0)} 0 0).foldl sAdd [] from rfl,
      mem_foldl_sAdd]
    simp only [List.not_mem_nil, false_or]
    exact mem_frontierList hw hh
  have heven0 : evenCell ((0, 0) : Cell) := ⟨rfl, rfl⟩
  have hg : (initState w h).g = ({(0, 0)} : Finset Cell) := rfl
  refine ⟨horig, ?_, ?_, ?_, ?_, ?_, ?_, ?_, ?_, ?_, ?_, ?_, rfl, rfl⟩
  · intro c hc
    rw [hg, Finset.mem_singleton] at hc
    subst hc
    exact ⟨hw, hh⟩
  · intro c hc
    rw [hg, Finset.mem_singleton] at hc
    subst hc
    exact Or.inl rfl
  · intro c hc
    rw [hg, Finset.mem_singleton] at hc
    subst hc
    intro habs
    exact absurd heven0 habs
  · exact nodup_foldl_sAdd List.nodup_nil
  · intro c hc
    obtain ⟨h1, h2, _, _⟩ := (hmem c).mp hc
    exact ⟨h1, h2⟩
  · intro c hc
    obtain ⟨_, _, _, h4⟩ := (hmem c).mp hc
    exact dist2_evenCell h4 heven0
  · intro c hc
    obtain ⟨_, _, h3, _⟩ := (hmem c).mp hc
    exact h3
  · intro c hc
    obtain ⟨h1, h2, _, h4⟩ := (hmem c).mp hc
    exact List.ne_nil_of_mem ((mem_neighboursList h1 h2).mpr
      ⟨hw, hh, horig, dist2_symm h4⟩)
  · intro c hc
    rw [hg] at hc ⊢
    rw [Finset.mem_singleton] at hc
    subst hc
    exact ⟨Reach4.base horig, fun _ => Reach2.base horig⟩
  · rw [hg, Finset.filter_singleton, if_pos heven0, Finset.card_singleton]
    rfl
  · rw [hg, Finset.filter_singleton, if_neg (by simpa using heven0), Finset.card_empty]
    rfl

theorem step_spec {w h : ℕ} (rng : ℕ → ℕ) {st : GenState}
    (hinv : Inv w h st) (hs : st.s ≠ []) :
    Inv w h (step rng w h st) ∧
    wallCount w h (step rng w h st) < wallCount w h st ∧
    (step rng w h st).pops = st.pops + 1 := by
  have hempty : st.s.isEmpty = false := by
    cases hsl : st.s with
    | nil => exact absurd hsl hs
    | cons a l => rfl
  set c := pick st.s (rng st.t) with hcdef
  have hcmem : c ∈ st.s := pick_mem hs _
  obtain ⟨hcw, hch⟩ := hinv.s_bounds c hcmem
  have hceven : evenCell c := hinv.s_parity c hcmem
  have hcwall : c ∉ st.g := hinv.s_wall c hcmem
  have hns : neighboursList w h st.g c.1 c.2 ≠ [] := hinv.s_nb c hcmem
  set ns := neighboursList w h st.g c.1 c.2 with hnsdef
  set n := pick ns (rng (st.t + 1)) with hndef
  have hnmem : n ∈ ns := pick_mem hns _
  obtain ⟨hnw, hnh, hng, hnd0⟩ := (mem_neighboursList hcw hch).mp hnmem
  have hdcn : dist2 c n := hnd0
  have hneven : evenCell n := dist2_evenCell hdcn hceven
  set m := midpt c n with hmdef
  have hmodd : ¬ evenCell m := midpt_not_evenCell hdcn hceven
  have hmpar : m.1 % 2 = 0 ∨ m.2 % 2 = 0 := by
    rw [hmdef]
    exact midpt_odd hdcn hceven
  have hmbounds : m.1 < w ∧ m.2 < h := by
    have h1 : m.1 = (c.1 + n.1) / 2 := by rw [hmdef]; rfl
    have h2 : m.2 = (c.2 + n.2) / 2 := by rw [hmdef]; rfl
    omega
  set G2 := insert m (insert c st.g) with hG2def
  have hsub : st.g ⊆ G2 := fun x hx =>
    Finset.mem_insert_of_mem (Finset.mem_insert_of_mem hx)
  have hcG2 : c ∈ G2 := Finset.mem_insert_of_mem (Finset.mem_insert_self c st.g)
  have hmG2 : m ∈ G2 := Finset.mem_insert_self m _
  have hnG2 : n ∈ G2 := hsub hng
  have hmemG2 : ∀ x : Cell, x ∈ G2 ↔ x = m ∨ x = c ∨ x ∈ st.g := by
    intro x
    rw [hG2def]
    simp [Finset.mem_insert]
  have hmwall : m ∉ st.g := by
    intro hmg
    obtain ⟨a, b, hag, hbg, hae, hab, hmab⟩ := hinv.g_mid m hmg hmodd
    rcases midpt_inj hab hdcn hae hceven (hmab.trans hmdef) with ⟨rfl, rfl⟩ | ⟨rfl, rfl⟩
    · exact hcwall hag
    · exact hcwall hbg
  set S2 := (frontierList w h G2 c.1 c.2).foldl sAdd (st.s.erase c) with hS2def
  have hmemS2 : ∀ x : Cell, x ∈ S2 ↔
      (x ≠ c ∧ x ∈ st.s) ∨ x ∈ frontierList w h G2 c.1 c.2 := by
    intro x
    rw [hS2def, mem_foldl_sAdd, List.Nodup.mem_erase_iff hinv.s_nodup]
  have hmemF : ∀ x : Cell, x ∈ frontierList w h G2 c.1 c.2 ↔
      x.1 < w ∧ x.2 < h ∧ x ∉ G2 ∧ dist2 c x :=
    fun x => mem_frontierList hcw hch
  have hstep : step rng w h st = popStep rng w h st c := by
    unfold step
    rw [hempty, hcdef]
    simp
  have hpop : popStep rng w h st c =
      { g := G2
        s := S2
        t := st.t + 2
        pops := st.pops + 1
        carves := st.carves + 1
        emptyPops := st.emptyPops } := by
    simp only [popStep]
    rw [← hnsdef, if_neg hns]
    rfl
  have horig2 : (0, 0) ∈ G2 := hsub hinv.origin_mem
  have hbounds2 : ∀ x ∈ G2, x.1 < w ∧ x.2 < h := by
    intro x hx
    rcases (hmemG2 x).mp hx with rfl | rfl | hxg
    · exact hmbounds
    · exact ⟨hcw, hch⟩
    · exact hinv.g_bounds x hxg
  have hparity2 : ∀ x ∈ G2, x.1 % 2 = 0 ∨ x.2 % 2 = 0 := by
    intro x hx
    rcases (hmemG2 x).mp hx with rfl | rfl | hxg
    · exact hmpar
    · exact Or.inl hceven.1
    · exact hinv.g_parity x hxg
  have hmid2 : ∀ x ∈ G2, ¬ evenCell x →
      ∃ a b : Cell, a ∈ G2 ∧ b ∈ G2 ∧ evenCell a ∧ dist2 a b ∧ midpt a b = x := by
    intro x hx hxo
    rcases (hmemG2 x).mp hx with rfl | rfl | hxg
    · exact ⟨c, n, hcG2, hnG2, hceven, hdcn, hmdef.symm⟩
    · exact absurd hceven hxo
    · obtain ⟨a, b, hag, hbg, hae, hab, hmab⟩ := hinv.g_mid x hxg hxo
      exact ⟨a, b, hsub hag, hsub hbg, hae, hab, hmab⟩
  have hnodup2 : S2.Nodup := by
    rw [hS2def]
    exact nodup_foldl_sAdd (hinv.s_nodup.erase c)
  have hsbounds2 : ∀ x ∈ S2, x.1 < w ∧ x.2 < h := by
    intro x hx
    rcases (hmemS2 x).mp hx with ⟨_, hxs⟩ | hxf
    · exact hinv.s_bounds x hxs
    · obtain ⟨h1, h2, _, _⟩ := (hmemF x).mp hxf
      exact ⟨h1, h2⟩
  have hsparity2 : ∀ x ∈ S2, evenCell x := by
    intro x hx
    rcases (hmemS2 x).mp hx with ⟨_, hxs⟩ | hxf
    · exact hinv.s_parity x hxs
    · exact dist2_evenCell ((hmemF x).mp hxf).2.2.2 hceven
  have hswall2 : ∀ x ∈ S2, x ∉ G2 := by
    intro x hx
    rcases (hmemS2 x).mp hx with ⟨hxc, hxs⟩ | hxf
    · intro hxG2
      rcases (hmemG2 x).mp hxG2 with rfl | rfl | hxg
      · exact hmodd (hinv.s_parity _ hxs)
      · exact hxc rfl
      · exact hinv.s_wall x hxs hxg
    · exact ((hmemF x).mp hxf).2.2.1
  have hsnb2 : ∀ x ∈ S2, neighboursList w h G2 x.1 x.2 ≠ [] := by
    intro x hx
    rcases (hmemS2 x).mp hx with ⟨_, hxs⟩ | hxf
    · obtain ⟨hxw, hxh⟩ := hinv.s_bounds x hxs
      exact neighbours_ne_nil_mono hsub hxw hxh (hinv.s_nb x hxs)
    · obtain ⟨hxw, hxh, _, hxd⟩ := (hmemF x).mp hxf
      exact List.ne_nil_of_mem ((mem_neighboursList hxw hxh).mpr
        ⟨hcw, hch, hcG2, dist2_symm hxd⟩)
  have hdnc : dist2 n c := dist2_symm hdcn
  have hmnc : midpt n c = m := by rw [hmdef, midpt_comm]
  have hr4n : Reach4 G2 n := Reach4_mono hsub (hinv.reach n hng).1
  have hr2n : Reach2 G2 n := Reach2_mono hsub ((hinv.reach n hng).2 hneven)
  have hr4m : Reach4 G2 m :=
    Reach4.next hr4n hmG2 (by rw [← hmnc]; exact adj4_midpt_left hdnc)
  have hr4c : Reach4 G2 c :=
    Reach4.next hr4m hcG2 (by rw [← hmnc]; exact adj4_midpt_right hdnc)
  have hr2c : Reach2 G2 c :=
    Reach2.next hr2n hcG2 hdnc (by rw [hmnc]; exact hmG2)
  have hreach2 : ∀ x ∈ G2, Reach4 G2 x ∧ (evenCell x → Reach2 G2 x) := by
    intro x hx
    rcases (hmemG2 x).mp hx with rfl | rfl | hxg
    · exact ⟨hr4m, fun hev => absurd hev hmodd⟩
    · exact ⟨hr4c, fun _ => hr2c⟩
    · obtain ⟨h4, h2⟩ := hinv.reach x hxg
      exact ⟨Reach4_mono hsub h4, fun hev => Reach2_mono hsub (h2 hev)⟩
  have hcnotf : c ∉ st.g.filter evenCell :=
    fun hmem => hcwall (Finset.mem_filter.mp hmem).1
  have hmnotf : m ∉ st.g.filter (fun x => ¬ evenCell x) :=
    fun hmem => hmwall (Finset.mem_filter.mp hmem).1
  have hce2 : (G2.filter evenCell).card = st.carves + 1 + 1 := by
    rw [hG2def, Finset.filter_insert, if_neg hmodd, Finset.filter_insert, if_pos hceven,
      Finset.card_insert_of_not_mem hcnotf, hinv.count_even]
  have hco2 : (G2.filter fun x => ¬ evenCell x).card = st.carves + 1 := by
    rw [hG2def, Finset.filter_insert, if_pos hmodd, Finset.filter_insert,
      if_neg (not_not_intro hceven), Finset.card_insert_of_not_mem hmnotf, hinv.count_odd]
  have hwall2 : ((allCells w h).filter fun x => evenCell x ∧ x ∉ G2).card <
      ((allCells w h).filter fun x => evenCell x ∧ x ∉ st.g).card := by
    apply Finset.card_lt_card
    have hsubf : ((allCells w h).filter fun x => evenCell x ∧ x ∉ G2) ⊆
        ((allCells w h).filter fun x => evenCell x ∧ x ∉ st.g) := by
      intro x hx
      rw [Finset.mem_filter] at hx ⊢
      exact ⟨hx.1, hx.2.1, fun hxg => hx.2.2 (hsub hxg)⟩
    rw [Finset.ssubset_iff_of_subset hsubf]
    refine ⟨c, ?_, ?_⟩
    · rw [Finset.mem_filter]
      refine ⟨?_, hceven, hcwall⟩
      rw [allCells, Finset.mem_product]
      exact ⟨Finset.mem_range.mpr hcw, Finset.mem_range.mpr hch⟩
    · rw [Finset.mem_filter]
      rintro ⟨_, _, habs⟩
      exact habs hcG2
  rw [hstep, hpop]
  exact ⟨⟨horig2, hbounds2, hparity2, hmid2, hnodup2, hsbounds2, hsparity2, hswall2,
    hsnb2, hreach2, hce2, hco2,
    (by rw [hinv.pops_carves] : st.pops + 1 = st.carves + 1), hinv.no_empty⟩,
    hwall2, rfl⟩

theorem run_spec {w h : ℕ} (rng : ℕ → ℕ) (fuel : ℕ) {st : GenState}
    (hinv : Inv w h st) :
    Inv w h (run rng w h fuel st) ∧
    (run rng w h fuel st).pops ≤ st.pops + wallCount w h st ∧
    (wallCount w h st ≤ fuel → (run rng w h fuel st).s = []) := by
  induction fuel generalizing st with
  | zero =>
    refine ⟨hinv, Nat.le_add_right _ _, ?_⟩
    intro hwc
    cases hsl : st.s with
    | nil => exact hsl
    | cons a l =>
      exfalso
      have hamem : a ∈ st.s := by
        rw [hsl]
        exact List.mem_cons_self a l
      obtain ⟨haw, hah⟩ := hinv.s_bounds a hamem
      have hae := hinv.s_parity a hamem
      have hawall := hinv.s_wall a hamem
      have hafil : a ∈ (allCells w h).filter (fun x => evenCell x ∧ x ∉ st.g) := by
        rw [Finset.mem_filter, allCells, Finset.mem_product]
        exact ⟨⟨Finset.mem_range.mpr haw, Finset.mem_range.mpr hah⟩, hae, hawall⟩
      have hpos : 0 < wallCount w h st := Finset.card_pos.mpr ⟨a, hafil⟩
      omega
  | succ fuel ih =>
    by_cases hsnil : st.s = []
    · have hrun : run rng w h (fuel + 1) st = st := by
        simp [run, hsnil]
      rw [hrun]
      exact ⟨hinv, Nat.le_add_right _ _, fun _ => hsnil⟩
    · have hempty : st.s.isEmpty = false := by
        cases hsl : st.s with
        | nil => exact absurd hsl hsnil
        | cons a l => rfl
      obtain ⟨hinv', hwc', hpops'⟩ := step_spec rng hinv hsnil
      have hrun : run rng w h (fuel + 1) st = run rng w h fuel (step rng w h st) := by
        simp [run, hempty]
      rw [hrun]
      obtain ⟨ih1, ih2, ih3⟩ := ih hinv'
      exact ⟨ih1, by omega, fun hle => ih3 (by omega)⟩

theorem wallCount_le (w h : ℕ) (st : GenState) : wallCount w h st ≤ w * h := by
  calc wallCount w h st ≤ (allCells w h).card := Finset.card_filter_le _ _
  _ = w * h := by rw [allCells, Finset.card_product, Finset.card_range, Finset.card_range]

theorem final_spec (w h : ℕ) (rng : ℕ → ℕ) (hw : 0 < w) (hh : 0 < h) :
    Inv w h (run rng w h (4 * w * h) (initState w h)) ∧
    (run rng w h (4 * w * h) (initState w h)).s = [] ∧
    (run rng w h (4 * w * h) (initState w h)).pops ≤ 4 * w * h := by
  obtain ⟨h1, h2, h3⟩ := run_spec rng (4 * w * h) (inv_init w h hw hh)
  have hb : wallCount w h (initState w h) ≤ w * h := wallCount_le w h _
  have hf : w * h ≤ 4 * w * h := by
    calc w * h = 1 * (w * h) := by ring
    _ ≤ 4 * (w * h) := Nat.mul_le_mul_right _ (by norm_num)
    _ = 4 * w * h := by ring
  refine ⟨h1, h3 (le_trans hb hf), ?_⟩
  have hp0 : (initState w h).pops = 0 := rfl
  calc (run rng w h (4 * w * h) (initState w h)).pops
      ≤ (initState w h).pops + wallCount w h (initState w h) := h2
  _ = wallCount w h (initState w h) := by rw [hp0, Nat.zero_add]
  _ ≤ w * h := hb
  _ ≤ 4 * w * h := hf

/-! ## Edge counting: carved connections are in bijection with midpoints -/

theorem dist2_ne {a b : Cell} (hd : dist2 a b) : a ≠ b := by
  unfold dist2 at hd
  intro he
  rw [Prod.ext_iff] at he
  omega

theorem midEdges_eq {a b x : Cell} (hab : dist2 a b) (hae : evenCell a)
    (hmab : midpt a b = x) : midEdges x = {(a, b), (b, a)} := by
  have hxo : ¬ evenCell x := hmab ▸ midpt_not_evenCell hab hae
  unfold midEdges
  by_cases h1 : x.1 % 2 = 1
  · rw [if_pos h1]
    rcases mid_endpoints_x hab hae hmab h1 with ⟨ha, hb⟩ | ⟨ha, hb⟩
    · rw [← ha, ← hb]
    · rw [← ha, ← hb]
      exact Finset.pair_comm _ _
  · have hxo' : ¬ (x.1 % 2 = 0 ∧ x.2 % 2 = 0) := hxo
    have h2 : x.2 % 2 = 1 := by omega
    rw [if_neg h1]
    rcases mid_endpoints_y hab hae hmab h2 with ⟨ha, hb⟩ | ⟨ha, hb⟩
    · rw [← ha, ← hb]
    · rw [← ha, ← hb]
      exact Finset.pair_comm _ _

theorem midpt_of_mem_midEdges {x a b : Cell} (hab : dist2 a b) (hae : evenCell a)
    (hmab : midpt a b = x) {p : Cell × Cell} (hp : p ∈ midEdges x) :
    midpt p.1 p.2 = x := by
  rw [midEdges_eq hab hae hmab, Finset.mem_insert, Finset.mem_singleton] at hp
  rcases hp with rfl | rfl
  · exact hmab
  · exact (midpt_comm b a).trans hmab

theorem dist2EdgeSet_eq_biUnion {g : Finset Cell}
    (hmid : ∀ x ∈ g, ¬ evenCell x →
      ∃ a b : Cell, a ∈ g ∧ b ∈ g ∧ evenCell a ∧ dist2 a b ∧ midpt a b = x) :
    dist2EdgeSet g = (g.filter fun x => ¬ evenCell x).biUnion midEdges := by
  ext p
  rw [Finset.mem_biUnion]
  constructor
  · intro hp
    rw [dist2EdgeSet, Finset.mem_filter, Finset.mem_product] at hp
    obtain ⟨⟨h1g, h2g⟩, h1e, h2e, hd, hm⟩ := hp
    refine ⟨midpt p.1 p.2, ?_, ?_⟩
    · rw [Finset.mem_filter]
      exact ⟨hm, midpt_not_evenCell hd h1e⟩
    · rw [midEdges_eq hd h1e rfl]
      exact Finset.mem_insert_self _ _
  · rintro ⟨x, hx, hpx⟩
    rw [Finset.mem_filter] at hx
    obtain ⟨hxg, hxo⟩ := hx
    obtain ⟨a, b, hag, hbg, hae, hab, hmab⟩ := hmid x hxg hxo
    have hbe : evenCell b := dist2_evenCell hab hae
    rw [midEdges_eq hab hae hmab, Finset.mem_insert, Finset.mem_singleton] at hpx
    rw [dist2EdgeSet, Finset.mem_filter, Finset.mem_product]
    rcases hpx with rfl | rfl
    · exact ⟨⟨hag, hbg⟩, hae, hbe, hab, by rw [show midpt (a, b).1 (a, b).2 = x from hmab]; exact hxg⟩
    · exact ⟨⟨hbg, hag⟩, hbe, hae, dist2_symm hab,
        by rw [show midpt (b, a).1 (b, a).2 = x from (midpt_comm b a).trans hmab]; exact hxg⟩

theorem dist2EdgeSet_card {g : Finset Cell}
    (hmid : ∀ x ∈ g, ¬ evenCell x →
      ∃ a b : Cell, a ∈ g ∧ b ∈ g ∧ evenCell a ∧ dist2 a b ∧ midpt a b = x) :
    (dist2EdgeSet g).card = 2 * (g.filter fun x => ¬ evenCell x).card := by
  have hdisj : ∀ x ∈ (g.filter fun x => ¬ evenCell x),
      ∀ y ∈ (g.filter fun x => ¬ evenCell x), x ≠ y →
      Disjoint (midEdges x) (midEdges y) := by
    intro x hx y hy hxy
    rw [Finset.mem_filter] at hx hy
    rw [Finset.disjoint_left]
    intro p hpx hpy
    obtain ⟨a, b, _, _, hae, hab, hmab⟩ := hmid x hx.1 hx.2
    obtain ⟨a', b', _, _, hae', hab', hmab'⟩ := hmid y hy.1 hy.2
    exact hxy ((midpt_of_mem_midEdges hab hae hmab hpx).symm.trans
      (midpt_of_mem_midEdges hab' hae' hmab' hpy))
  have hcard2 : ∀ x ∈ (g.filter fun x => ¬ evenCell x), (midEdges x).card = 2 := by
    intro x hx
    rw [Finset.mem_filter] at hx
    obtain ⟨a, b, _, _, hae, hab, hmab⟩ := hmid x hx.1 hx.2
    rw [midEdges_eq hab hae hmab]
    rw [Finset.card_insert_of_not_mem, Finset.card_singleton]
    rw [Finset.mem_singleton]
    intro he
    rw [Prod.ext_iff] at he
    exact dist2_ne hab he.1
  rw [dist2EdgeSet_eq_biUnion hmid, Finset.card_biUnion hdisj,
    Finset.sum_congr rfl hcard2, Finset.sum_const, smul_eq_mul, Nat.mul_comm]

/-! ## Claim theorems -/

/-- C1: for every `width ≥ 1`, `height ≥ 1` and every sequence of random
draws, after `__generate` completes every passage cell is reachable from
the origin `(0, 0)` through passage cells, both under 4-adjacency
restricted to passages and, for the even-even cells, by steps of exactly
two along one axis whose intervening cell is also a passage. -/
theorem generate_connectivity (w h : ℕ) (rng : ℕ → ℕ) (hw : 1 ≤ w) (hh : 1 ≤ h) :
    ∀ c ∈ (run rng w h (4 * w * h) (initState w h)).g,
      Reach4 (run rng w h (4 * w * h) (initState w h)).g c ∧
      (evenCell c → Reach2 (run rng w h (4 * w * h) (initState w h)).g c) :=
  (final_spec w h rng hw hh).1.reach

/-- Witness for C1: in the `3 × 3` maze generated with the constant-zero
draw stream, the passage cell `(2, 2)` is reachable from the origin both
ways. -/
theorem generate_connectivity_witness :
    Reach4 (run rngZero 3 3 (4 * 3 * 3) (initState 3 3)).g (2, 2) ∧
    Reach2 (run rngZero 3 3 (4 * 3 * 3) (initState 3 3)).g (2, 2) := by
  obtain ⟨h4, h2⟩ :=
    generate_connectivity 3 3 rngZero (by decide) (by decide) (2, 2) (by decide)
  exact ⟨h4, h2 (by decide)⟩

/-- C2: the carved passages form a spanning tree of the distance-2
connectivity graph reachable from the origin.  The nodes of that graph
are the even-parity passage cells (the odd-parity passages are the
intervening cells that realise the carved connections); `carves` counts
the frontier-pop events that found a non-empty neighbour set and executed
`__connect`.  Node count is `carves + 1` (the origin), the ordered edge
count of the distance-2 relation is `2 * carves` (each carved connection
in both directions), hence the edge count equals node count minus one,
and every pop carves by connecting to exactly one neighbour
(`pops = carves`). -/
theorem generate_spanning_tree (w h : ℕ) (rng : ℕ → ℕ) (hw : 1 ≤ w) (hh : 1 ≤ h) :
    ((run rng w h (4 * w * h) (initState w h)).g.filter evenCell).card
      = (run rng w h (4 * w * h) (initState w h)).carves + 1 ∧
    (dist2EdgeSet (run rng w h (4 * w * h) (initState w h)).g).card
      = 2 * (run rng w h (4 * w * h) (initState w h)).carves ∧
    (dist2EdgeSet (run rng w h (4 * w * h) (initState w h)).g).card
      = 2 * (((run rng w h (4 * w * h) (initState w h)).g.filter evenCell).card - 1) ∧
    (run rng w h (4 * w * h) (initState w h)).pops
      = (run rng w h (4 * w * h) (initState w h)).carves := by
  obtain ⟨hinv, _, _⟩ := final_spec w h rng hw hh
  set R := run rng w h (4 * w * h) (initState w h) with hR
  have hedge : (dist2EdgeSet R.g).card = 2 * (R.g.filter fun x => ¬ evenCell x).card :=
    dist2EdgeSet_card hinv.g_mid
  refine ⟨hinv.count_even, ?_, ?_, hinv.pops_carves⟩
  · rw [hedge, hinv.count_odd]
  · rw [hedge, hinv.count_odd, hinv.count_even]
    omega

/-- Witness for C2 at `width = height = 3` with the constant-zero draw
stream. -/
theorem generate_spanning_tree_witness :
    ((run rngZero 3 3 (4 * 3 * 3) (initState 3 3)).g.filter evenCell).card
      = (run rngZero 3 3 (4 * 3 * 3) (initState 3 3)).carves + 1 ∧
    (dist2EdgeSet (run rngZero 3 3 (4 * 3 * 3) (initState 3 3)).g).card
      = 2 * (run rngZero 3 3 (4 * 3 * 3) (initState 3 3)).carves ∧
    (dist2EdgeSet (run rngZero 3 3 (4 * 3 * 3) (initState 3 3)).g).card
      = 2 * (((run rngZero 3 3 (4 * 3 * 3) (initState 3 3)).g.filter evenCell).card - 1) ∧
    (run rngZero 3 3 (4 * 3 * 3) (initState 3 3)).pops
      = (run rngZero 3 3 (4 * 3 * 3) (initState 3 3)).carves :=
  generate_spanning_tree 3 3 rngZero (by decide) (by decide)

/-- C3: for every `width ≥ 1`, `height ≥ 1` and every sequence of random
draws the generation loop terminates: the working set is empty after at
most `4 * width * height` iterations (fuel `4 * w * h` reaches the empty
working set, and the number of frontier pops is at most
`4 * width * height`). -/
theorem generate_terminates (w h : ℕ) (rng : ℕ → ℕ) (hw : 1 ≤ w) (hh : 1 ≤ h) :
    (run rng w h (4 * w * h) (initState w h)).s = [] ∧
    (run rng w h (4 * w * h) (initState w h)).pops ≤ 4 * w * h :=
  ⟨(final_spec w h rng hw hh).2.1, (final_spec w h rng hw hh).2.2⟩

/-- Witness for C3 at `width = height = 3` with the constant-zero draw
stream. -/
theorem generate_terminates_witness :
    (run rngZero 3 3 (4 * 3 * 3) (initState 3 3)).s = [] ∧
    (run rngZero 3 3 (4 * 3 * 3) (initState 3 3)).pops ≤ 4 * 3 * 3 :=
  generate_terminates 3 3 rngZero (by decide) (by decide)

/-- C4 counterexample: the claim asserts that for some dimensions and
draw sequence a popped frontier cell has no passage neighbour at distance
two when processed (and is silently dropped).  This never happens: the
ghost counter `emptyPops`, incremented exactly when a pop finds an empty
neighbour list, is zero in every reachable state of every run, because a
cell only enters the working set when a distance-2 cell was just carved
and passages never revert to walls. -/
theorem no_silent_drop_counterexample :
    ¬ ∃ (w h k : ℕ) (rng : ℕ → ℕ), 1 ≤ w ∧ 1 ≤ h ∧
      0 < (run rng w h k (initState w h)).emptyPops := by
  rintro ⟨w, h, k, rng, hw, hh, hpos⟩
  have hzero := (run_spec rng k (inv_init w h hw hh)).1.no_empty
  omega

/-- C4 amended: in every reachable state of every run, no frontier pop
has ever found an empty neighbour set (`emptyPops = 0`), i.e. every
popped cell has at least one passage neighbour at distance two at the
moment it is processed, and consequently every pop carves
(`pops = carves`); the silent-drop branch of the loop is unreachable. -/
theorem every_pop_carves (w h k : ℕ) (rng : ℕ → ℕ) (hw : 1 ≤ w) (hh : 1 ≤ h) :
    (run rng w h k (initState w h)).emptyPops = 0 ∧
    (run rng w h k (initState w h)).pops = (run rng w h k (initState w h)).carves := by
  obtain ⟨hinv, _, _⟩ := run_spec rng k (inv_init w h hw hh)
  exact ⟨hinv.no_empty, hinv.pops_carves⟩

/-- Witness for the amended C4 at `width = height = 3`, `k = 36` pops,
constant-zero draw stream. -/
theorem every_pop_carves_witness :
    (run rngZero 3 3 36 (initState 3 3)).emptyPops = 0 ∧
    (run rngZero 3 3 36 (initState 3 3)).pops = (run rngZero 3 3 36 (initState 3 3)).carves :=
  every_pop_carves 3 3 36 rngZero (by decide) (by decide)

/-- C5 counterexample: the claim asserts `createMaze(1, 1, …)` fails with
`InvalidDimensions`; in the code `Maze_Generator.__init__` performs no
dimension validation and a `1 × 1` construction succeeds, producing the
single-passage lattice. -/
theorem dims_one_accepted :
    mkMaze 1 1 rngZero =
      .ok { g := {(0, 0)}, s := [], t := 0, pops := 0, carves := 0, emptyPops := 0 } := by
  rfl

/-- C5 amended: the constructor performs no dimension validation.  A zero
width or height fails only with the uncaught `IndexError` raised by the
origin carve `self.grid[0][0] = True` (not a dedicated
`InvalidDimensions` error), and `width = height = 1` is accepted and
yields the single-cell all-passage lattice, for every draw stream. -/
theorem mk_dims_behaviour (rng : ℕ → ℕ) :
    mkMaze 0 5 rng = .error .indexError ∧
    mkMaze 1 1 rng =
      .ok { g := {(0, 0)}, s := [], t := 0, pops := 0, carves := 0, emptyPops := 0 } :=
  ⟨rfl, rfl⟩

/-- C6 counterexample: at the out-of-bounds query coordinate `(3, 0)` on
a `3 × 1` all-wall lattice, `__frontier` returns the empty set although
the in-bounds wall cell `(1, 0)` lies at distance exactly two from
`(3, 0)`; so for out-of-bounds query cells the claimed characterisation
fails (the code first bounds-checks the query cell itself). -/
theorem frontier_oob_counterexample :
    ¬ (((1, 0) : Cell) ∈ frontierList 3 1 (∅ : Finset Cell) 3 0 ↔
      ((1, 0) : Cell).1 < 3 ∧ ((1, 0) : Cell).2 < 1 ∧
      ((1, 0) : Cell) ∉ (∅ : Finset Cell) ∧ dist2 (3, 0) (1, 0)) := by
  decide

/-- C6 amended: for every in-bounds query cell `(x, y)`, `__frontier`
returns exactly the in-bounds wall cells at distance exactly two along a
single axis from `(x, y)`, and `__neighbours` returns exactly the
corresponding passage cells; for an out-of-bounds query cell both return
the empty set.  Both are pure functions of the lattice state. -/
theorem frontier_neighbours_spec (w h : ℕ) (g : Finset Cell) (x y : ℕ)
    (hx : x < w) (hy : y < h) (c : Cell) :
    (c ∈ frontierList w h g x y ↔ c.1 < w ∧ c.2 < h ∧ c ∉ g ∧ dist2 (x, y) c) ∧
    (c ∈ neighboursList w h g x y ↔ c.1 < w ∧ c.2 < h ∧ c ∈ g ∧ dist2 (x, y) c) :=
  ⟨mem_frontierList hx hy, mem_neighboursList hx hy⟩

/-- Witness for the amended C6 at a concrete lattice and query cell. -/
theorem frontier_neighbours_spec_witness :
    (((2, 0) : Cell) ∈ frontierList 5 5 {(0, 0)} 0 0 ↔
      ((2, 0) : Cell).1 < 5 ∧ ((2, 0) : Cell).2 < 5 ∧
      ((2, 0) : Cell) ∉ ({(0, 0)} : Finset Cell) ∧ dist2 (0, 0) (2, 0)) ∧
    (((2, 0) : Cell) ∈ neighboursList 5 5 {(0, 0)} 0 0 ↔
      ((2, 0) : Cell).1 < 5 ∧ ((2, 0) : Cell).2 < 5 ∧
      ((2, 0) : Cell) ∈ ({(0, 0)} : Finset Cell) ∧ dist2 (0, 0) (2, 0)) :=
  frontier_neighbours_spec 5 5 {(0, 0)} 0 0 (by decide) (by decide) (2, 0)

/-- C7: for two cells at distance exactly two along a single axis,
`__connect` sets the wall coordinate `(x1, y1)` and the midpoint
coordinate to passage; the midpoint is the exact arithmetic mean of the
two coordinates (the floor division loses nothing), and every other cell
of the lattice is unchanged.  The embedding is a pure function, so the
two insertions are atomic with respect to the rest of the loop. -/
theorem connect_frame (g : Finset Cell) (x1 y1 x2 y2 : ℕ)
    (hd : dist2 (x1, y1) (x2, y2)) :
    (x1, y1) ∈ connect g x1 y1 x2 y2 ∧
    ((x1 + x2) / 2, (y1 + y2) / 2) ∈ connect g x1 y1 x2 y2 ∧
    2 * ((x1 + x2) / 2) = x1 + x2 ∧ 2 * ((y1 + y2) / 2) = y1 + y2 ∧
    (∀ c : Cell, c ≠ (x1, y1) → c ≠ ((x1 + x2) / 2, (y1 + y2) / 2) →
      (c ∈ connect g x1 y1 x2 y2 ↔ c ∈ g)) := by
  have hd' : (y1 = y2 ∧ (x1 + 2 = x2 ∨ x2 + 2 = x1)) ∨
      (x1 = x2 ∧ (y1 + 2 = y2 ∨ y2 + 2 = y1)) := hd
  unfold connect
  refine ⟨Finset.mem_insert_of_mem (Finset.mem_insert_self _ _),
    Finset.mem_insert_self _ _, by omega, by omega, ?_⟩
  intro c hc1 hc2
  rw [Finset.mem_insert, Finset.mem_insert]
  constructor
  · rintro (rfl | rfl | hcg)
    · exact absurd rfl hc2
    · exact absurd rfl hc1
    · exact hcg
  · exact fun hcg => Or.inr (Or.inr hcg)

/-- Witness for C7 connecting wall `(0, 0)` to passage `(2, 0)` over the
empty lattice, with the frame condition instantiated at the untouched
cell `(4, 4)`. -/
theorem connect_frame_witness :
    ((0, 0) : Cell) ∈ connect ∅ 0 0 2 0 ∧
    (((0 + 2) / 2 : ℕ), ((0 + 0) / 2 : ℕ)) ∈ connect ∅ 0 0 2 0 ∧
    2 * ((0 + 2) / 2) = 0 + 2 ∧ 2 * ((0 + 0) / 2) = 0 + 0 ∧
    (((4, 4) : Cell) ∈ connect ∅ 0 0 2 0 ↔ ((4, 4) : Cell) ∈ (∅ : Finset Cell)) := by
  obtain ⟨h1, h2, h3, h4, h5⟩ := connect_frame ∅ 0 0 2 0 (by decide)
  exact ⟨h1, h2, h3, h4, h5 (4, 4) (by decide) (by decide)⟩

/-- C8 counterexample: the claim asserts the accessor fails for every
coordinate outside `[0, width) × [0, height)`, including negative ones.
Reading the finished `2 × 2` maze at `(-1, 0)` — a coordinate outside
that window — succeeds with a value instead of failing: numpy integer
indexing silently wraps negative indices. -/
theorem isPassage_neg_wrap_counterexample :
    (-1 : ℤ) < 0 ∧
    isPassage 2 2 (run rngZero 2 2 (4 * 2 * 2) (initState 2 2)).g (-1) 0 = .ok false := by
  exact ⟨by decide, rfl⟩

/-- C8 amended: reading `grid[x][y]` on a finished maze returns the
passage state for `0 ≤ x < width`, `0 ≤ y < height`, raises `IndexError`
for `x ≥ width` or `x < -width` (likewise `y`), and for
`-width ≤ x < 0` silently wraps to `x + width` (numpy negative-index
semantics) instead of failing.  The read never mutates the lattice. -/
theorem isPassage_spec (w h : ℕ) (g : Finset Cell) (x y : ℤ) (hw : 0 < w) (hh : 0 < h) :
    (0 ≤ x → x < (w : ℤ) → 0 ≤ y → y < (h : ℤ) →
      isPassage w h g x y = .ok (decide ((x.toNat, y.toNat) ∈ g))) ∧
    ((x < -(w : ℤ) ∨ (w : ℤ) ≤ x ∨ y < -(h : ℤ) ∨ (h : ℤ) ≤ y) →
      isPassage w h g x y = .error .indexError) ∧
    (-(w : ℤ) ≤ x → x < 0 → 0 ≤ y → y < (h : ℤ) →
      isPassage w h g x y = .ok (decide (((x + w).toNat, y.toNat) ∈ g))) := by
  refine ⟨?_, ?_, ?_⟩
  · intro h1 h2 h3 h4
    unfold isPassage
    rw [if_pos ⟨by omega, h2, by omega, h4⟩, Int.emod_eq_of_lt h1 h2,
      Int.emod_eq_of_lt h3 h4]
  · intro hcase
    unfold isPassage
    rw [if_neg (by omega)]
  · intro h1 h2 h3 h4
    unfold isPassage
    rw [if_pos ⟨h1, by omega, by omega, h4⟩]
    have h5 : (x + (w : ℤ)) % (w : ℤ) = x + w := Int.emod_eq_of_lt (by omega) (by omega)
    have h6 : (x + (w : ℤ) * 1) % (w : ℤ) = x % (w : ℤ) :=
      Int.add_mul_emod_self_left x (w : ℤ) 1
    rw [mul_one] at h6
    rw [Int.emod_eq_of_lt h3 h4, show x % (w : ℤ) = x + w by omega]

/-- Witness for the amended C8 on a concrete `2 × 2` lattice: an
in-range read, a far out-of-range read, and a wrapping negative read. -/
theorem isPassage_spec_witness :
    isPassage 2 2 {(0, 0)} 1 0 =
      .ok (decide (((1 : ℤ).toNat, (0 : ℤ).toNat) ∈ ({(0, 0)} : Finset Cell))) ∧
    isPassage 2 2 {(0, 0)} 5 0 = .error .indexError ∧
    isPassage 2 2 {(0, 0)} (-1) 0 =
      .ok (decide ((((-1 : ℤ) + (2 : ℕ)).toNat, (0 : ℤ).toNat) ∈ ({(0, 0)} : Finset Cell))) := by
  refine ⟨?_, ?_, ?_⟩
  · exact (isPassage_spec 2 2 {(0, 0)} 1 0 (by decide) (by decide)).1
      (by decide) (by decide) (by decide) (by decide)
  · exact (isPassage_spec 2 2 {(0, 0)} 5 0 (by decide) (by decide)).2.1 (by decide)
  · exact (isPassage_spec 2 2 {(0, 0)} (-1) 0 (by decide) (by decide)).2.2
      (by decide) (by decide) (by decide) (by decide)

/-- C9: generation is a deterministic function of the dimensions and the
injected stream of random draws — two constructions with identical
`(width, height)` and pointwise-equal draw streams produce identical
results, in particular bit-identical lattices. -/
theorem generate_deterministic (w h : ℕ) (r1 r2 : ℕ → ℕ) (hr : ∀ i, r1 i = r2 i) :
    mkMaze w h r1 = mkMaze w h r2 := by
  rw [funext hr]

/-- Witness for C9 at `width = height = 3` with two syntactically
different but pointwise-equal draw streams. -/
theorem generate_deterministic_witness :
    mkMaze 3 3 rngZero = mkMaze 3 3 (fun i => 0 * i) :=
  generate_deterministic 3 3 rngZero (fun i => 0 * i) (fun i => (Nat.zero_mul i).symm)

/-- C10: parity invariant of generation, at every iteration count `k`:
every cell in the working set has both coordinates even, and every
passage cell either has both coordinates even (the origin and the popped
frontier cells) or exactly one odd coordinate (the midpoints carved by
`__connect`); consequently a cell with both coordinates odd is never a
passage in any generated maze. -/
theorem parity_invariant (w h k : ℕ) (rng : ℕ → ℕ) (hw : 1 ≤ w) (hh : 1 ≤ h) :
    (∀ c ∈ (run rng w h k (initState w h)).s, c.1 % 2 = 0 ∧ c.2 % 2 = 0) ∧
    (∀ c ∈ (run rng w h k (initState w h)).g,
      (c.1 % 2 = 0 ∧ c.2 % 2 = 0) ∨ (c.1 % 2 = 0 ∧ c.2 % 2 = 1) ∨
      (c.1 % 2 = 1 ∧ c.2 % 2 = 0)) := by
  obtain ⟨hinv, _, _⟩ := run_spec rng k (inv_init w h hw hh)
  refine ⟨hinv.s_parity, ?_⟩
  intro c hc
  have hp := hinv.g_parity c hc
  omega

/-- Witness for C10: the midpoint passage `(1, 2)` of the `3 × 3` maze
generated with the constant-zero draw stream has at least one even
coordinate (it is not odd-odd). -/
theorem parity_invariant_witness :
    ((((1, 2) : Cell).1 % 2 = 0 ∧ ((1, 2) : Cell).2 % 2 = 0) ∨
     (((1, 2) : Cell).1 % 2 = 0 ∧ ((1, 2) : Cell).2 % 2 = 1) ∨
     (((1, 2) : Cell).1 % 2 = 1 ∧ ((1, 2) : Cell).2 % 2 = 0)) :=
  (parity_invariant 3 3 36 rngZero (by decide) (by decide)).2 (1, 2) (by decide)

end MazeGen
